import Mathlib

/-!
Verification development for the cmus_rich repository.

Shallow embedding, in Lean 4, of the core components the specification
talks about:

* `src/cmus_rich/core/cmus_interface.py` — `CMUSInterface._parse_status`
  together with the `TrackInfo` and `PlayerStatus` dataclasses;
* `src/cmus_rich/core/state.py` — `AppState` with `update`, `save`, `load`;
* `src/cmus_rich/core/events.py` — `EventType`, `Event`, `EventBus`;
* `src/cmus_rich/utils/cache.py` — the in-memory `Cache` (LRU + TTL).

Python strings are modelled as lists of characters (`Chars`); the Python
string helpers used by the source (`str.strip`, `str.split`,
`str.split("\n")`, `str.split(None, 2)`, `str.lower`, slicing, `int(...)`)
are reimplemented below with the same observable behaviour.  Python code
that can raise is embedded into `Except String`.  Wall-clock readings
(`time.time()`) are passed in explicitly as naturals; `await`/locks play
no role in the sequential semantics of a single call and are dropped.
-/

namespace CmusRich

/-- Python strings, modelled as their character lists. -/
abbrev Chars := List Char

/-- Python's `line.startswith(p)`, computed as `p.data.isPrefixOf l`. -/
def isPre (p : String) (l : Chars) : Bool :=
  p.data.isPrefixOf l

/-- Drop leading whitespace (the delimiter-skipping step of `str.split`). -/
def dropWs (cs : Chars) : Chars :=
  cs.dropWhile Char.isWhitespace

/-- Take the maximal non-whitespace token at the front. -/
def takeTok (cs : Chars) : Chars :=
  cs.takeWhile (fun c => !c.isWhitespace)

/-- Drop the maximal non-whitespace token at the front. -/
def dropTok (cs : Chars) : Chars :=
  cs.dropWhile (fun c => !c.isWhitespace)

/-- Python `str.strip()`: remove leading and trailing whitespace. -/
def stripWs (cs : Chars) : Chars :=
  ((dropWs cs).reverse.dropWhile Char.isWhitespace).reverse

/-- Helper for `wsSplit`: accumulates the current token (reversed). -/
def wsSplitAux : Chars → Chars → List Chars
  | [], acc => if acc = [] then [] else [acc.reverse]
  | c :: cs, acc =>
    if c.isWhitespace then
      if acc = [] then wsSplitAux cs [] else acc.reverse :: wsSplitAux cs []
    else
      wsSplitAux cs (c :: acc)

/-- Python `str.split()` (split on whitespace runs, no empty fields). -/
def wsSplit (cs : Chars) : List Chars :=
  wsSplitAux cs []

/-- Python `str.split(None, 2)`: at most two splits on whitespace runs;
the remainder after the second split is kept verbatim (Python keeps the
remainder's trailing whitespace but consumes its leading whitespace run,
and drops an all-whitespace remainder). -/
def wsSplit2 (s : Chars) : List Chars :=
  let s0 := dropWs s
  if s0 = [] then []
  else
    let t1 := takeTok s0
    let s1 := dropWs (dropTok s0)
    if s1 = [] then [t1]
    else
      let t2 := takeTok s1
      let s2 := dropWs (dropTok s1)
      if s2 = [] then [t1, t2] else [t1, t2, s2]

/-- Helper for `splitNl`: accumulates the current line (reversed). -/
def splitNlAux : Chars → Chars → List Chars
  | [], acc => [acc.reverse]
  | c :: cs, acc =>
    if c = '\n' then acc.reverse :: splitNlAux cs []
    else splitNlAux cs (c :: acc)

/-- Python `str.split("\n")` (keeps empty fields; `""` gives `[""]`). -/
def splitNl (cs : Chars) : List Chars :=
  splitNlAux cs []

/-- ASCII lower-casing of one character (what `str.lower` does on the
ASCII tag names the protocol emits). -/
def lowerChar (c : Char) : Char :=
  if 'A' ≤ c ∧ c ≤ 'Z' then Char.ofNat (c.toNat + 32) else c

/-- Python `str.lower()` (ASCII fragment). -/
def lowerStr (cs : Chars) : Chars :=
  cs.map lowerChar

/-- Is `cs` a nonempty string of ASCII digits? -/
def isDigits (cs : Chars) : Bool :=
  !cs.isEmpty && cs.all (fun c => '0' ≤ c && c ≤ '9')

/-- Numeric value of a digit string. -/
def digitsToNat (cs : Chars) : Nat :=
  cs.foldl (fun a c => 10 * a + (c.toNat - 48)) 0

/-- Python `int(s)` on a whitespace-free token: an optional sign followed
by decimal digits, `none` when `int` would raise `ValueError`. -/
def pyInt : Chars → Option Int
  | '+' :: rest => if isDigits rest then some (digitsToNat rest : Int) else none
  | '-' :: rest => if isDigits rest then some (-(digitsToNat rest : Int)) else none
  | cs => if isDigits cs then some (digitsToNat cs : Int) else none

/-- A value stored in the `track_info` dict built by `_parse_status`:
`duration`/`position` lines store Python ints, `tag` lines store strings
(the dataclass performs no runtime type checking, so both can end up in
any slot). -/
inductive TagV
  | i (n : Int)
  | s (v : Chars)
deriving DecidableEq, Repr

/-- The `TrackInfo` dataclass of `cmus_interface.py`.  `duration` and
`position` are `Optional[int]` by annotation but receive whatever the
dict holds, hence `TagV`. -/
structure TrackInfo where
  file : Chars
  artist : Option Chars := none
  album : Option Chars := none
  title : Option Chars := none
  duration : Option TagV := none
  position : Option TagV := none
  date : Option Chars := none
  genre : Option Chars := none
deriving DecidableEq, Repr

/-- The `PlayerStatus` dataclass of `cmus_interface.py`. -/
structure PlayerStatus where
  status : Chars
  track : Option TrackInfo := none
  volume : Int := 100
  «repeat» : Bool := false
  shuffle : Bool := false
deriving DecidableEq, Repr

/-- The `track_info` dict accumulated by `_parse_status`: one optional
slot per `TrackInfo` field plus the list of keys that are *not*
`TrackInfo` fields (only their presence matters: `TrackInfo(**d)` raises
`TypeError` exactly when such a key exists). -/
structure TrackDict where
  file : Option Chars := none
  artist : Option Chars := none
  album : Option Chars := none
  title : Option Chars := none
  duration : Option TagV := none
  position : Option TagV := none
  date : Option Chars := none
  genre : Option Chars := none
  extra : List Chars := []
deriving DecidableEq, Repr

/-- Assignment `track_info[tag_name.lower()] = tag_value` of a `tag` line: the
lower-cased name selects a slot; a name that is no `TrackInfo` field is
recorded in `extra`. -/
def TrackDict.setTag (d : TrackDict) (name v : Chars) : TrackDict :=
  if name = "file".data then { d with file := some v }
  else if name = "artist".data then { d with artist := some v }
  else if name = "album".data then { d with album := some v }
  else if name = "title".data then { d with title := some v }
  else if name = "duration".data then { d with duration := some (.s v) }
  else if name = "position".data then { d with position := some (.s v) }
  else if name = "date".data then { d with date := some v }
  else if name = "genre".data then { d with genre := some v }
  else { d with extra := d.extra ++ [name] }

/-- Construction `TrackInfo(**track_info)`: raises `TypeError` when the dict holds a
keyword that is not a dataclass field, otherwise builds the `TrackInfo`.
(The call site only runs it when `track_info.get("file")` is truthy, so
the `getD` default is never observable.) -/
def TrackDict.toTrackInfo (d : TrackDict) : Except String TrackInfo :=
  if d.extra = [] then
    .ok ⟨d.file.getD [], d.artist, d.album, d.title, d.duration, d.position,
         d.date, d.genre⟩
  else
    .error "TypeError: unexpected keyword argument"

/-- The loop state of `_parse_status`: the `PlayerStatus` under
construction and the `track_info` dict. -/
structure ParseSt where
  ps : PlayerStatus
  dict : TrackDict
deriving DecidableEq, Repr

/-- One iteration of the `for line in lines` loop of
`CMUSInterface._parse_status`, with the same prefix chain in the same
order.  `.error` marks the raise points of the Python body:
`line.split()[k]` out of range (`IndexError`) and `int(...)` on a
non-integer (`ValueError`). -/
def processLine (st : ParseSt) (line : Chars) : Except String ParseSt :=
  if isPre "status " line then
    match (wsSplit line).get? 1 with
    | some w => .ok { st with ps := { st.ps with status := w } }
    | none => .error "IndexError"
  else if isPre "file " line then
    .ok { st with dict := { st.dict with file := some (line.drop 5) } }
  else if isPre "tag " line then
    match wsSplit2 line with
    | [_, name, v] => .ok { st with dict := st.dict.setTag (lowerStr name) v }
    | _ => .ok st
  else if isPre "duration " line then
    match (wsSplit line).get? 1 with
    | none => .error "IndexError"
    | some w =>
      match pyInt w with
      | some n => .ok { st with dict := { st.dict with duration := some (.i n) } }
      | none => .error "ValueError"
  else if isPre "position " line then
    match (wsSplit line).get? 1 with
    | none => .error "IndexError"
    | some w =>
      match pyInt w with
      | some n => .ok { st with dict := { st.dict with position := some (.i n) } }
      | none => .error "ValueError"
  else if isPre "set vol_left " line || isPre "set vol_right " line then
    if isPre "set vol_left " line then
      match (wsSplit line).get? 2 with
      | none => .error "IndexError"
      | some w =>
        match pyInt w with
        | some n => .ok { st with ps := { st.ps with volume := n } }
        | none => .error "ValueError"
    else .ok st
  else if isPre "set repeat " line then
    match (wsSplit line).get? 2 with
    | none => .error "IndexError"
    | some w => .ok { st with ps := { st.ps with «repeat» := w = "true".data } }
  else if isPre "set shuffle " line then
    match (wsSplit line).get? 2 with
    | none => .error "IndexError"
    | some w => .ok { st with ps := { st.ps with shuffle := w = "true".data } }
  else
    .ok st

/-- The final step of `_parse_status`: attach a `TrackInfo` exactly when
`track_info.get("file")` is truthy (present and a nonempty string). -/
def finishParse (st : ParseSt) : Except String PlayerStatus :=
  if st.dict.file.getD [] ≠ [] then
    (st.dict.toTrackInfo).map (fun t => { st.ps with track := some t })
  else
    .ok st.ps

/-- Embedding of `CMUSInterface._parse_status(output)`: strip, split into lines, fold
the line loop, then attach the track.  `.error e` models the Python call
raising `e`. -/
def parse_status (output : Chars) : Except String PlayerStatus :=
  let lines := splitNl (stripWs output)
  match lines.foldlM processLine ⟨{ status := "stopped".data }, {}⟩ with
  | .error e => .error e
  | .ok st => finishParse st

/-- Names that are `TrackInfo` dataclass fields (the acceptable keywords
of `TrackInfo(**d)`). -/
def tagFields : List Chars :=
  ["file".data, "artist".data, "album".data, "title".data, "duration".data,
   "position".data, "date".data, "genre".data]

/-- Names of tag-only `TrackInfo` fields: `tagFields` without `file`. -/
def trackTagFields : List Chars :=
  ["artist".data, "album".data, "title".data, "duration".data,
   "position".data, "date".data, "genre".data]

/-- A line on which the body of the `_parse_status` loop cannot raise:
every recognized-prefix line carries the argument its branch indexes and
(for `duration`/`position`/`set vol_left`) an integer one, and a `tag`
line's lower-cased name is a `TrackInfo` field (so that the final
`TrackInfo(**track_info)` cannot see an unexpected keyword).  Lines with
an unrecognized prefix are unconditionally safe. -/
def lineSafe (l : Chars) : Bool :=
  if isPre "status " l then decide (2 ≤ (wsSplit l).length)
  else if isPre "file " l then true
  else if isPre "tag " l then
    match wsSplit2 l with
    | [_, name, _] => decide (lowerStr name ∈ tagFields)
    | _ => true
  else if isPre "duration " l then
    match (wsSplit l).get? 1 with
    | some w => (pyInt w).isSome
    | none => false
  else if isPre "position " l then
    match (wsSplit l).get? 1 with
    | some w => (pyInt w).isSome
    | none => false
  else if isPre "set vol_left " l then
    match (wsSplit l).get? 2 with
    | some w => (pyInt w).isSome
    | none => false
  else if isPre "set vol_right " l then true
  else if isPre "set repeat " l then decide (3 ≤ (wsSplit l).length)
  else if isPre "set shuffle " l then decide (3 ≤ (wsSplit l).length)
  else true

/-- A well-formed status line in the sense of the specification's line
grammar (§4.1): recognized lines carry their arguments (`file` a
nonempty path, `tag` a known tag-field name with a value, numeric lines
an integer), and anything with an unrecognized prefix is an ignorable
protocol line. -/
def wfLine (l : Chars) : Bool :=
  if isPre "status " l then decide (2 ≤ (wsSplit l).length)
  else if isPre "file " l then !(l.drop 5).isEmpty
  else if isPre "tag " l then
    match wsSplit2 l with
    | [_, name, _] => decide (lowerStr name ∈ trackTagFields)
    | _ => false
  else if isPre "duration " l then
    match (wsSplit l).get? 1 with
    | some w => (pyInt w).isSome
    | none => false
  else if isPre "position " l then
    match (wsSplit l).get? 1 with
    | some w => (pyInt w).isSome
    | none => false
  else if isPre "set vol_left " l then
    match (wsSplit l).get? 2 with
    | some w => (pyInt w).isSome
    | none => false
  else if isPre "set vol_right " l then true
  else if isPre "set repeat " l then decide (3 ≤ (wsSplit l).length)
  else if isPre "set shuffle " l then decide (3 ≤ (wsSplit l).length)
  else true

/-- The lines of a status text that start with `file `. -/
def fileLines (lines : List Chars) : List Chars :=
  lines.filter (fun l => isPre "file " l)

/-- The path carried by the last `file ` line, if any. -/
def lastFilePath (lines : List Chars) : Option Chars :=
  (fileLines lines).getLast?.map (fun l => l.drop 5)

/-- The contribution of one line to the pending track path: a `file `
line carries `line[5:]`, any other line carries nothing. -/
def lineFile (l : Chars) : Option Chars :=
  if isPre "file " l then some (l.drop 5) else Option.none

/-- The line list `_parse_status` iterates over for a given raw output. -/
def statusLines (output : Chars) : List Chars :=
  splitNl (stripWs output)

/-- JSON-representable Python values, as stored in `play_history` entries,
`statistics` values, `selected_items` and event payloads. -/
inductive PyVal
  | none
  | bool (b : Bool)
  | int (n : Int)
  | str (s : String)
  | list (xs : List PyVal)
  | dict (kvs : List (String × PyVal))

/-- One `play_history` entry (a Python dict). -/
abbrev HistEntry := List (String × PyVal)

/-- The `AppState` dataclass of `state.py`.  Python dicts are modelled as
insertion-ordered association lists.  `_lock` (an `asyncio.Lock`, pure
synchronization) is dropped; `_observers` keeps only the identities of
the registered callbacks, so that an invocation can be recorded. -/
structure AppState where
  player_status : Option PlayerStatus := Option.none
  current_queue : List TrackInfo := []
  active_view : String := "dashboard"
  selected_items : List PyVal := []
  search_query : String := ""
  playlists : List (String × List String) := []
  play_history : List HistEntry := []
  statistics : List (String × PyVal) := []
  library_cache : List (String × TrackInfo) := []
  album_art_cache : List (String × String) := []
  _observers : List Nat := []

/-- The structured document `AppState.save` serializes (the durable
subset).  `json.dumps` followed by `json.loads` is the identity on these
JSON trees, so the file on disk is modelled by the document itself. -/
structure SavedDoc where
  playlists : List (String × List String)
  play_history : List HistEntry
  statistics : List (String × PyVal)
  active_view : String
  search_query : String

/-- The durable subset of a state, for stating round-trip equality. -/
def AppState.durable (s : AppState) : SavedDoc :=
  ⟨s.playlists, s.play_history, s.statistics, s.active_view, s.search_query⟩

/-- Embedding of `AppState.save`: build the persisted document; `play_history[-1000:]`
keeps the last 1000 entries. -/
def AppState.save (s : AppState) : SavedDoc :=
  { playlists := s.playlists
    play_history := s.play_history.drop (s.play_history.length - 1000)
    statistics := s.statistics
    active_view := s.active_view
    search_query := s.search_query }

/-- Embedding of `AppState.load`: `Option.none` models the path naming no existing
file (`FileNotFoundError` is caught with `pass`, leaving every field
as it was); otherwise the parsed document's fields are assigned. -/
def AppState.load (doc : Option SavedDoc) (s : AppState) : AppState :=
  match doc with
  | Option.none => s
  | some d =>
    { s with
      playlists := d.playlists
      play_history := d.play_history
      statistics := d.statistics
      active_view := d.active_view
      search_query := d.search_query }

/-- One keyword argument of `AppState.update(**kwargs)`: one constructor
per public dataclass field, and `unknown` for a keyword naming no
attribute of the object (`hasattr` false, so `setattr` is skipped). -/
inductive UpdateArg
  | player_status (v : Option PlayerStatus)
  | current_queue (v : List TrackInfo)
  | active_view (v : String)
  | selected_items (v : List PyVal)
  | search_query (v : String)
  | playlists (v : List (String × List String))
  | play_history (v : List HistEntry)
  | statistics (v : List (String × PyVal))
  | library_cache (v : List (String × TrackInfo))
  | album_art_cache (v : List (String × String))
  | unknown (name : String) (v : PyVal)

/-- The keyword (dict key) of an update argument. -/
def UpdateArg.key : UpdateArg → String
  | .player_status _ => "player_status"
  | .current_queue _ => "current_queue"
  | .active_view _ => "active_view"
  | .selected_items _ => "selected_items"
  | .search_query _ => "search_query"
  | .playlists _ => "playlists"
  | .play_history _ => "play_history"
  | .statistics _ => "statistics"
  | .library_cache _ => "library_cache"
  | .album_art_cache _ => "album_art_cache"
  | .unknown n _ => n

/-- One iteration of the `for key, value in kwargs.items()` loop:
`if hasattr(self, key): setattr(self, key, value)`. -/
def applyArg (s : AppState) : UpdateArg → AppState
  | .player_status v => { s with player_status := v }
  | .current_queue v => { s with current_queue := v }
  | .active_view v => { s with active_view := v }
  | .selected_items v => { s with selected_items := v }
  | .search_query v => { s with search_query := v }
  | .playlists v => { s with playlists := v }
  | .play_history v => { s with play_history := v }
  | .statistics v => { s with statistics := v }
  | .library_cache v => { s with library_cache := v }
  | .album_art_cache v => { s with album_art_cache := v }
  | .unknown _ _ => s

/-- Embedding of `AppState.update(**kwargs)`: apply every keyword, then invoke every
registered observer with `kwargs.keys()`.  The second component records
the observer invocations `(observer, keys)` in order. -/
def AppState.update (s : AppState) (args : List UpdateArg) :
    AppState × List (Nat × List String) :=
  let s1 := args.foldl applyArg s
  (s1, s1._observers.map (fun o => (o, args.map UpdateArg.key)))

/-- Names of the public `AppState` dataclass fields, for the frame
statement of `update`. -/
inductive FieldKey
  | player_status | current_queue | active_view | selected_items
  | search_query | playlists | play_history | statistics
  | library_cache | album_art_cache
deriving DecidableEq, Repr

/-- The Python attribute name of a field. -/
def FieldKey.name : FieldKey → String
  | .player_status => "player_status"
  | .current_queue => "current_queue"
  | .active_view => "active_view"
  | .selected_items => "selected_items"
  | .search_query => "search_query"
  | .playlists => "playlists"
  | .play_history => "play_history"
  | .statistics => "statistics"
  | .library_cache => "library_cache"
  | .album_art_cache => "album_art_cache"

/-- The value of one `AppState` field, as a tagged union (the fields
have different types). -/
inductive FieldVal
  | vStatus (v : Option PlayerStatus)
  | vTracks (v : List TrackInfo)
  | vStr (v : String)
  | vItems (v : List PyVal)
  | vPlaylists (v : List (String × List String))
  | vHistory (v : List HistEntry)
  | vStats (v : List (String × PyVal))
  | vLib (v : List (String × TrackInfo))
  | vArt (v : List (String × String))

/-- Project one field of the state. -/
def AppState.getField (s : AppState) : FieldKey → FieldVal
  | .player_status => .vStatus s.player_status
  | .current_queue => .vTracks s.current_queue
  | .active_view => .vStr s.active_view
  | .selected_items => .vItems s.selected_items
  | .search_query => .vStr s.search_query
  | .playlists => .vPlaylists s.playlists
  | .play_history => .vHistory s.play_history
  | .statistics => .vStats s.statistics
  | .library_cache => .vLib s.library_cache
  | .album_art_cache => .vArt s.album_art_cache

/-- The `EventType` enumeration of `events.py`. -/
inductive EventType
  | TRACK_CHANGED | PLAYBACK_STARTED | PLAYBACK_PAUSED | PLAYBACK_STOPPED
  | VOLUME_CHANGED | QUEUE_UPDATED | QUEUE_CLEARED | LIBRARY_SCANNED
  | TRACK_ADDED | TRACK_REMOVED | VIEW_CHANGED | SEARCH_PERFORMED
  | SELECTION_CHANGED | COMMAND_EXECUTED | KEYBIND_TRIGGERED
deriving DecidableEq, Repr

/-- The `Event` dataclass: type, payload dict, creation timestamp
(`datetime.now()` passed in as an abstract instant), optional source. -/
structure Event where
  type : EventType
  data : List (String × PyVal)
  timestamp : Nat := 0
  source : Option String := Option.none

/-- A subscribed handler: an identity (so invocations can be recorded)
and a body that either returns or raises. -/
structure Handler where
  id : Nat
  run : Event → Except String Unit

/-- Handlers registered for an event type (`self._handlers.get(t, [])`,
insertion-ordered dict of lists). -/
def getHandlers : List (EventType × List Handler) → EventType → List Handler
  | [], _ => []
  | (t1, hs) :: rest, t => if t1 = t then hs else getHandlers rest t

/-- Registration step of `EventBus.subscribe`: create the type's list if absent, then append
the handler to it. -/
def putHandler : List (EventType × List Handler) → EventType → Handler →
    List (EventType × List Handler)
  | [], t, h => [(t, [h])]
  | (t1, hs) :: rest, t, h =>
    if t1 = t then (t1, hs ++ [h]) :: rest
    else (t1, hs) :: putHandler rest t h

/-- The `EventBus` of `events.py`: handler registry, FIFO queue
(`asyncio.Queue`), bounded history. -/
structure EventBus where
  handlers : List (EventType × List Handler) := []
  queue : List Event := []
  history : List Event := []
  history_size : Nat := 100

/-- Embedding of `EventBus.subscribe(event_type, handler)`. -/
def EventBus.subscribe (b : EventBus) (t : EventType) (h : Handler) : EventBus :=
  { b with handlers := putHandler b.handlers t h }

/-- Embedding of `EventBus.emit(event)`: append to the bounded history (evicting the
oldest entry when the size bound is exceeded) and enqueue for dispatch. -/
def EventBus.emit (b : EventBus) (e : Event) : EventBus :=
  let hist := b.history ++ [e]
  let hist := if hist.length > b.history_size then hist.drop 1 else hist
  { b with history := hist, queue := b.queue ++ [e] }

/-- One recorded handler invocation: which handler ran, on which event,
and whether its body returned or raised (the raise is caught by the
per-handler `try`/`except`, so it is recorded, not propagated). -/
structure Invocation where
  handler : Nat
  event : Event
  outcome : Except String Unit

/-- The inner `for handler in handlers` loop of `process_events`: every
handler is invoked; a raising handler's exception is caught and the loop
continues with the remaining handlers. -/
def dispatchEvent : List Handler → Event → List Invocation
  | [], _ => []
  | h :: rest, e =>
    match h.run e with
    | .ok u => ⟨h.id, e, .ok u⟩ :: dispatchEvent rest e
    | .error m => ⟨h.id, e, .error m⟩ :: dispatchEvent rest e

/-- Embedding of `EventBus.process_events` over the currently queued events: dequeue
in FIFO order and dispatch each event to the handlers registered for its
type, returning the invocation trace and the drained bus. -/
def EventBus.process_events (b : EventBus) : List Invocation × EventBus :=
  (b.queue.flatMap (fun e => dispatchEvent (getHandlers b.handlers e.type) e),
   { b with queue := [] })

/-- The in-memory `Cache` of `cache.py`.  The two parallel dicts
`self.cache` and `self.access_times` always hold the same keys in the
same insertion order, so they are modelled as one association list
`key ↦ (value, last-access time)`.  Stored values have type `Option β`
because Python's `None` is storable (`get` returns `None` both for a
miss and for a stored `None`). -/
structure Cache (β : Type) where
  max_size : Nat := 1000
  ttl : Nat := 3600
  entries : List (String × Option β × Nat) := []

/-- Dict lookup (`key in self.cache` / `self.cache[key]`). -/
def entGet {β : Type} : List (String × Option β × Nat) → String →
    Option (Option β × Nat)
  | [], _ => Option.none
  | p :: rest, k => if p.1 = k then some p.2 else entGet rest k

/-- Dict assignment: replace in place when the key is present, append
otherwise (insertion order preserved, as in a Python dict). -/
def entSet {β : Type} : List (String × Option β × Nat) → String →
    Option β × Nat → List (String × Option β × Nat)
  | [], k, v => [(k, v)]
  | p :: rest, k, v =>
    if p.1 = k then (k, v) :: rest else p :: entSet rest k v

/-- Dict deletion (`del self.cache[key]`). -/
def entDel {β : Type} : List (String × Option β × Nat) → String →
    List (String × Option β × Nat)
  | [], _ => []
  | p :: rest, k => if p.1 = k then entDel rest k else p :: entDel rest k

/-- Evaluation of `min(self.access_times.items(), key=lambda x: x[1])`: the key with
the smallest last-access time, first one winning ties (Python's `min`
keeps the earlier item on ties, and dict iteration is insertion order). -/
def oldestKey {β : Type} : List (String × Option β × Nat) → Option String
  | [] => Option.none
  | p :: rest =>
    some ((rest.foldl (fun best q => if q.2.2 < best.2.2 then q else best) p).1)

/-- Embedding of `Cache.get(key)` at clock reading `now`: a fresh entry's access time
is refreshed and its value returned; an entry whose age reaches the TTL
is deleted and `None` is returned, as for a missing key. -/
def Cache.get {β : Type} (c : Cache β) (k : String) (now : Nat) :
    Option β × Cache β :=
  match entGet c.entries k with
  | some (v, t) =>
    if now - t < c.ttl then
      (v, { c with entries := entSet c.entries k (v, now) })
    else
      (Option.none, { c with entries := entDel c.entries k })
  | Option.none => (Option.none, c)

/-- Embedding of `Cache.set(key, value)` at clock reading `now`: when the dict has
reached `max_size`, the entry with the oldest access time is evicted
first; then the value is stored with access time `now`. -/
def Cache.set {β : Type} (c : Cache β) (k : String) (v : Option β)
    (now : Nat) : Cache β :=
  let c1 :=
    if c.entries.length ≥ c.max_size then
      match oldestKey c.entries with
      | some k0 => { c with entries := entDel c.entries k0 }
      | Option.none => c
    else c
  { c1 with entries := entSet c1.entries k (v, now) }

/-- Embedding of `Cache.get_or_compute(key, compute_func)`: a `get` returning `None`
(miss, expired, or a stored `None`) triggers the compute function, whose
result is stored and returned.  The two clock readings are the `get` and
`set` instants; the `Bool` records whether `compute_func` was invoked. -/
def Cache.get_or_compute {β : Type} (c : Cache β) (k : String)
    (f : Unit → Option β) (now1 now2 : Nat) : Option β × Cache β × Bool :=
  let r := c.get k now1
  match r.1 with
  | some v => (some v, r.2, false)
  | Option.none =>
    let v := f ()
    (v, r.2.set k v now2, true)

/-! ## Helper lemmas -/

theorem entGet_entDel {β : Type} (es : List (String × Option β × Nat))
    (k : String) : entGet (entDel es k) k = Option.none := by
  induction es with
  | nil => rfl
  | cons p rest ih =>
    by_cases h : p.1 = k
    · simpa [entDel, h] using ih
    · simp [entDel, entGet, h, ih]

theorem applyArg_observers (s : AppState) (a : UpdateArg) :
    (applyArg s a)._observers = s._observers := by
  cases a <;> rfl

theorem foldl_applyArg_observers (args : List UpdateArg) :
    ∀ s : AppState, (args.foldl applyArg s)._observers = s._observers := by
  induction args with
  | nil => intro s; rfl
  | cons a rest ih =>
    intro s
    simpa [List.foldl_cons, applyArg_observers] using ih (applyArg s a)

theorem applyArg_getField (s : AppState) (a : UpdateArg) (f : FieldKey)
    (h : f.name ≠ a.key) : (applyArg s a).getField f = s.getField f := by
  cases a <;> cases f <;>
    simp_all [applyArg, AppState.getField, UpdateArg.key, FieldKey.name]

theorem foldl_applyArg_getField (args : List UpdateArg) :
    ∀ (s : AppState) (f : FieldKey), f.name ∉ args.map UpdateArg.key →
      (args.foldl applyArg s).getField f = s.getField f := by
  induction args with
  | nil => intro s f _; rfl
  | cons a rest ih =>
    intro s f h
    simp only [List.map_cons, List.mem_cons, not_or] at h
    rw [List.foldl_cons, ih (applyArg s a) f h.2, applyArg_getField s a f h.1]

theorem dispatchEvent_eq_map (hs : List Handler) (e : Event) :
    dispatchEvent hs e = hs.map (fun h => ⟨h.id, e, h.run e⟩) := by
  induction hs with
  | nil => rfl
  | cons h rest ih =>
    cases hr : h.run e <;> simp [dispatchEvent, hr, ih]

theorem foldl_emit_queue (es : List Event) :
    ∀ b : EventBus, (es.foldl EventBus.emit b).queue = b.queue ++ es := by
  induction es with
  | nil => intro b; simp
  | cons e rest ih =>
    intro b
    rw [List.foldl_cons, ih (EventBus.emit b e)]
    simp [EventBus.emit]

theorem foldl_emit_handlers (es : List Event) :
    ∀ b : EventBus, (es.foldl EventBus.emit b).handlers = b.handlers := by
  induction es with
  | nil => intro b; rfl
  | cons e rest ih =>
    intro b
    simpa [List.foldl_cons, EventBus.emit] using ih (b.emit e)

theorem isPre_elim {p : String} {l : Chars} (h : isPre p l = true) :
    ∃ r, l = p.data ++ r := by
  obtain ⟨r, hr⟩ := List.isPrefixOf_iff_prefix.mp h
  exact ⟨r, hr.symm⟩

theorem isPre_incomp {p q : String} {l : Chars} (h : isPre p l = true)
    (h1 : p.data.isPrefixOf q.data = false)
    (h2 : q.data.isPrefixOf p.data = false) :
    isPre q l = false := by
  cases hb : isPre q l
  · rfl
  · exfalso
    have hp : p.data <+: l := List.isPrefixOf_iff_prefix.mp h
    have hq : q.data <+: l := List.isPrefixOf_iff_prefix.mp hb
    rcases List.prefix_or_prefix_of_prefix hp hq with hh | hh
    · rw [List.isPrefixOf_iff_prefix.mpr hh] at h1
      simp at h1
    · rw [List.isPrefixOf_iff_prefix.mpr hh] at h2
      simp at h2

theorem status_not_file {l : Chars} (h : isPre "status " l = true) :
    isPre "file " l = false :=
  isPre_incomp h (by decide) (by decide)

theorem setTag_extra_of_mem (d : TrackDict) {n : Chars} (v : Chars)
    (h : n ∈ tagFields) : (d.setTag n v).extra = d.extra := by
  simp only [tagFields, List.mem_cons, List.mem_singleton,
             List.not_mem_nil, or_false] at h
  rcases h with rfl | rfl | rfl | rfl | rfl | rfl | rfl | rfl <;>
    simp +decide [TrackDict.setTag]

theorem setTag_keeps_file_of_mem (d : TrackDict) {n : Chars} (v : Chars)
    (h : n ∈ trackTagFields) :
    (d.setTag n v).file = d.file ∧ (d.setTag n v).extra = d.extra := by
  simp only [trackTagFields, List.mem_cons, List.mem_singleton,
             List.not_mem_nil, or_false] at h
  rcases h with rfl | rfl | rfl | rfl | rfl | rfl | rfl <;>
    simp +decide [TrackDict.setTag]

theorem finishParse_isOk (st : ParseSt) (hx : st.dict.extra = []) :
    ∃ ps, finishParse st = .ok ps := by
  unfold finishParse
  by_cases h : st.dict.file.getD [] ≠ []
  · simp [h, TrackDict.toTrackInfo, hx, Except.map]
  · simp [h]

theorem finishParse_some (st : ParseSt) (f : Chars) (hx : st.dict.extra = [])
    (hf : st.dict.file = some f) (hne : f ≠ []) :
    finishParse st =
      .ok { st.ps with
            track := some (TrackInfo.mk f st.dict.artist st.dict.album
                            st.dict.title st.dict.duration st.dict.position
                            st.dict.date st.dict.genre) } := by
  simp [finishParse, hf, hne, TrackDict.toTrackInfo, hx, Except.map]

theorem finishParse_nofile (st : ParseSt) (hf : st.dict.file = Option.none) :
    finishParse st = .ok st.ps := by
  simp [finishParse, hf]

theorem processLine_safe (st : ParseSt) (l : Chars)
    (hs : lineSafe l = true) (hx : st.dict.extra = []) :
    ∃ st', processLine st l = .ok st' ∧ st'.dict.extra = [] := by
  unfold lineSafe at hs
  unfold processLine
  by_cases h1 : isPre "status " l = true
  · rw [if_pos h1] at hs ⊢
    cases hg : (wsSplit l).get? 1 with
    | none =>
      exfalso
      have hlen := List.get?_eq_none.mp hg
      simp at hs
      omega
    | some w => exact ⟨_, rfl, hx⟩
  · rw [if_neg h1] at hs ⊢
    by_cases h2 : isPre "file " l = true
    · rw [if_pos h2]
      exact ⟨_, rfl, hx⟩
    · rw [if_neg h2] at hs ⊢
      by_cases h3 : isPre "tag " l = true
      · rw [if_pos h3] at hs ⊢
        cases hw : wsSplit2 l with
        | nil => exact ⟨st, rfl, hx⟩
        | cons p1 r1 =>
          cases r1 with
          | nil => exact ⟨st, rfl, hx⟩
          | cons p2 r2 =>
            cases r2 with
            | nil => exact ⟨st, rfl, hx⟩
            | cons p3 r3 =>
              cases r3 with
              | nil =>
                rw [hw] at hs
                refine ⟨_, rfl, ?_⟩
                simp only [decide_eq_true_eq] at hs
                rw [setTag_extra_of_mem st.dict p3 hs]
                exact hx
              | cons p4 r4 => exact ⟨st, rfl, hx⟩
      · rw [if_neg h3] at hs ⊢
        by_cases h4 : isPre "duration " l = true
        · rw [if_pos h4] at hs ⊢
          cases hg : (wsSplit l).get? 1 with
          | none =>
            rw [List.get?_eq_getElem?] at hg
            simp [hg] at hs
          | some w =>
            dsimp only
            cases hp : pyInt w with
            | none =>
              rw [List.get?_eq_getElem?] at hg
              simp [hg, hp] at hs
            | some n => exact ⟨_, rfl, hx⟩
        · rw [if_neg h4] at hs ⊢
          by_cases h5 : isPre "position " l = true
          · rw [if_pos h5] at hs ⊢
            cases hg : (wsSplit l).get? 1 with
            | none =>
              rw [List.get?_eq_getElem?] at hg
              simp [hg] at hs
            | some w =>
              dsimp only
              cases hp : pyInt w with
              | none =>
                rw [List.get?_eq_getElem?] at hg
                simp [hg, hp] at hs
              | some n => exact ⟨_, rfl, hx⟩
          · rw [if_neg h5] at hs ⊢
            by_cases h6 : isPre "set vol_left " l = true
            · rw [if_pos h6] at hs
              simp only [h6, Bool.true_or, if_true]
              cases hg : (wsSplit l).get? 2 with
              | none =>
                rw [List.get?_eq_getElem?] at hg
                simp [hg] at hs
              | some w =>
                dsimp only
                cases hp : pyInt w with
                | none =>
                  rw [List.get?_eq_getElem?] at hg
                  simp [hg, hp] at hs
                | some n => exact ⟨_, rfl, hx⟩
            · rw [if_neg h6] at hs ⊢
              by_cases h7 : isPre "set vol_right " l = true
              · have h6f : isPre "set vol_left " l = false := by
                  simpa using h6
                simp only [h6f, h7, Bool.false_or, Bool.false_eq_true,
                           if_true, if_false]
                exact ⟨st, rfl, hx⟩
              · rw [if_neg h7] at hs
                have h6f : isPre "set vol_left " l = false := by
                  simpa using h6
                have h7f : isPre "set vol_right " l = false := by
                  simpa using h7
                simp only [h6f, h7f, Bool.false_or, Bool.false_eq_true,
                           if_false]
                by_cases h8 : isPre "set repeat " l = true
                · rw [if_pos h8] at hs ⊢
                  cases hg : (wsSplit l).get? 2 with
                  | none =>
                    exfalso
                    have hlen := List.get?_eq_none.mp hg
                    simp at hs
                    omega
                  | some w => exact ⟨_, rfl, hx⟩
                · rw [if_neg h8] at hs ⊢
                  by_cases h9 : isPre "set shuffle " l = true
                  · rw [if_pos h9] at hs ⊢
                    cases hg : (wsSplit l).get? 2 with
                    | none =>
                      exfalso
                      have hlen := List.get?_eq_none.mp hg
                      simp at hs
                      omega
                    | some w => exact ⟨_, rfl, hx⟩
                  · rw [if_neg h9]
                    exact ⟨st, rfl, hx⟩

theorem foldl_processLine_safe (L : List Chars) :
    ∀ st : ParseSt, L.all lineSafe = true → st.dict.extra = [] →
      ∃ st', L.foldlM processLine st = .ok st' ∧ st'.dict.extra = [] := by
  induction L with
  | nil => intro st _ hx; exact ⟨st, rfl, hx⟩
  | cons l rest ih =>
    intro st hall hx
    simp only [List.all_cons, Bool.and_eq_true] at hall
    obtain ⟨st1, hst1, hx1⟩ := processLine_safe st l hall.1 hx
    obtain ⟨st', hst', hx'⟩ := ih st1 hall.2 hx1
    refine ⟨st', ?_, hx'⟩
    rw [List.foldlM_cons, hst1]
    exact hst'

theorem parse_status_eq (output : Chars) {st' : ParseSt}
    (h : (statusLines output).foldlM processLine
        ⟨{ status := "stopped".data }, {}⟩ = .ok st') :
    parse_status output = finishParse st' := by
  simp only [parse_status]
  rw [show splitNl (stripWs output) = statusLines output from rfl, h]

theorem lastFilePath_cons (l : Chars) (L : List Chars) :
    lastFilePath (l :: L) = (lastFilePath L).or (lineFile l) := by
  unfold lastFilePath fileLines lineFile
  by_cases hf : isPre "file " l = true
  · rw [List.filter_cons_of_pos (by simpa using hf), if_pos hf]
    cases hfl : List.filter (fun l => isPre "file " l) L with
    | nil => simp [hfl]
    | cons a rest =>
      rw [List.getLast?_cons_cons]
      cases hlast : (a :: rest).getLast? with
      | none => simp at hlast
      | some y => simp [Option.or]
  · rw [List.filter_cons_of_neg (by simpa using hf), if_neg hf]
    cases (List.filter (fun l => isPre "file " l) L).getLast? <;>
      simp [Option.or]

theorem noFile_iff (L : List Chars) :
    lastFilePath L = Option.none ↔
      L.any (fun l => isPre "file " l) = false := by
  induction L with
  | nil => simp [lastFilePath, fileLines]
  | cons l rest ih =>
    rw [lastFilePath_cons, List.any_cons]
    constructor
    · intro h
      have h1 : lastFilePath rest = Option.none := by
        cases hr : lastFilePath rest
        · rfl
        · rw [hr] at h; simp [Option.or] at h
      rw [h1] at h
      have h2 : lineFile l = Option.none := by simpa [Option.or] using h
      have h3 : isPre "file " l = false := by
        by_cases hp : isPre "file " l = true
        · rw [lineFile, if_pos hp] at h2; cases h2
        · simpa using hp
      rw [h3, ih.mp h1]
      rfl
    · intro h
      simp only [Bool.or_eq_false_iff] at h
      have h2 : lineFile l = Option.none := by simp [lineFile, h.1]
      rw [h2, ih.mpr h.2]
      rfl

theorem processLine_wf (st : ParseSt) (l : Chars)
    (hs : wfLine l = true) (hx : st.dict.extra = [])
    (hne : ∀ x, st.dict.file = some x → x ≠ []) :
    ∃ st', processLine st l = .ok st'
      ∧ st'.dict.extra = []
      ∧ st'.dict.file = (lineFile l).or st.dict.file
      ∧ (∀ x, st'.dict.file = some x → x ≠ [])
      ∧ st'.ps.track = st.ps.track := by
  unfold wfLine at hs
  unfold processLine
  by_cases h1 : isPre "status " l = true
  · rw [if_pos h1] at hs ⊢
    have hlf : lineFile l = Option.none := by
      simp [lineFile, status_not_file h1]
    cases hg : (wsSplit l).get? 1 with
    | none =>
      exfalso
      have hlen := List.get?_eq_none.mp hg
      simp at hs
      omega
    | some w => exact ⟨_, rfl, hx, by simp [hlf, Option.or], hne, rfl⟩
  · rw [if_neg h1] at hs ⊢
    by_cases h2 : isPre "file " l = true
    · rw [if_pos h2] at hs ⊢
      have hlf : lineFile l = some (l.drop 5) := by simp [lineFile, h2]
      refine ⟨_, rfl, hx, by simp [hlf, Option.or], ?_, rfl⟩
      intro x hfx
      simp only [Option.some.injEq] at hfx
      subst hfx
      simpa using hs
    · rw [if_neg h2] at hs ⊢
      have hlf : lineFile l = Option.none := by simp [lineFile, h2]
      by_cases h3 : isPre "tag " l = true
      · rw [if_pos h3] at hs ⊢
        cases hw : wsSplit2 l with
        | nil => rw [hw] at hs; simp at hs
        | cons p1 r1 =>
          cases r1 with
          | nil => rw [hw] at hs; simp at hs
          | cons p2 r2 =>
            cases r2 with
            | nil => rw [hw] at hs; simp at hs
            | cons p3 r3 =>
              cases r3 with
              | nil =>
                rw [hw] at hs
                simp only [decide_eq_true_eq] at hs
                have hkeep := setTag_keeps_file_of_mem st.dict p3 hs
                refine ⟨_, rfl, ?_, ?_, ?_, rfl⟩
                · rw [hkeep.2]; exact hx
                · rw [hkeep.1, hlf]; rfl
                · intro x hfx
                  rw [hkeep.1] at hfx
                  exact hne x hfx
              | cons p4 r4 => rw [hw] at hs; simp at hs
      · rw [if_neg h3] at hs ⊢
        by_cases h4 : isPre "duration " l = true
        · rw [if_pos h4] at hs ⊢
          cases hg : (wsSplit l).get? 1 with
          | none =>
            rw [List.get?_eq_getElem?] at hg
            simp [hg] at hs
          | some w =>
            dsimp only
            cases hp : pyInt w with
            | none =>
              rw [List.get?_eq_getElem?] at hg
              simp [hg, hp] at hs
            | some n => exact ⟨_, rfl, hx, by simp [hlf, Option.or], hne, rfl⟩
        · rw [if_neg h4] at hs ⊢
          by_cases h5 : isPre "position " l = true
          · rw [if_pos h5] at hs ⊢
            cases hg : (wsSplit l).get? 1 with
            | none =>
              rw [List.get?_eq_getElem?] at hg
              simp [hg] at hs
            | some w =>
              dsimp only
              cases hp : pyInt w with
              | none =>
                rw [List.get?_eq_getElem?] at hg
                simp [hg, hp] at hs
              | some n => exact ⟨_, rfl, hx, by simp [hlf, Option.or], hne, rfl⟩
          · rw [if_neg h5] at hs ⊢
            by_cases h6 : isPre "set vol_left " l = true
            · rw [if_pos h6] at hs
              simp only [h6, Bool.true_or, if_true]
              cases hg : (wsSplit l).get? 2 with
              | none =>
                rw [List.get?_eq_getElem?] at hg
                simp [hg] at hs
              | some w =>
                dsimp only
                cases hp : pyInt w with
                | none =>
                  rw [List.get?_eq_getElem?] at hg
                  simp [hg, hp] at hs
                | some n =>
                  exact ⟨_, rfl, hx, by simp [hlf, Option.or], hne, rfl⟩
            · rw [if_neg h6] at hs ⊢
              by_cases h7 : isPre "set vol_right " l = true
              · have h6f : isPre "set vol_left " l = false := by
                  simpa using h6
                simp only [h6f, h7, Bool.false_or, Bool.false_eq_true,
                           if_true, if_false]
                exact ⟨st, rfl, hx, by simp [hlf, Option.or], hne, rfl⟩
              · rw [if_neg h7] at hs
                have h6f : isPre "set vol_left " l = false := by
                  simpa using h6
                have h7f : isPre "set vol_right " l = false := by
                  simpa using h7
                simp only [h6f, h7f, Bool.false_or, Bool.false_eq_true,
                           if_false]
                by_cases h8 : isPre "set repeat " l = true
                · rw [if_pos h8] at hs ⊢
                  cases hg : (wsSplit l).get? 2 with
                  | none =>
                    exfalso
                    have hlen := List.get?_eq_none.mp hg
                    simp at hs
                    omega
                  | some w =>
                    exact ⟨_, rfl, hx, by simp [hlf, Option.or], hne, rfl⟩
                · rw [if_neg h8] at hs ⊢
                  by_cases h9 : isPre "set shuffle " l = true
                  · rw [if_pos h9] at hs ⊢
                    cases hg : (wsSplit l).get? 2 with
                    | none =>
                      exfalso
                      have hlen := List.get?_eq_none.mp hg
                      simp at hs
                      omega
                    | some w =>
                      exact ⟨_, rfl, hx, by simp [hlf, Option.or], hne, rfl⟩
                  · rw [if_neg h9]
                    exact ⟨st, rfl, hx, by simp [hlf, Option.or], hne, rfl⟩

theorem foldl_processLine_wf (L : List Chars) :
    ∀ st : ParseSt, L.all wfLine = true → st.dict.extra = [] →
      (∀ x, st.dict.file = some x → x ≠ []) →
      ∃ st', L.foldlM processLine st = .ok st'
        ∧ st'.dict.extra = []
        ∧ st'.dict.file = (lastFilePath L).or st.dict.file
        ∧ (∀ x, st'.dict.file = some x → x ≠ [])
        ∧ st'.ps.track = st.ps.track := by
  induction L with
  | nil =>
    intro st _ hx hne
    exact ⟨st, rfl, hx, rfl, hne, rfl⟩
  | cons l rest ih =>
    intro st hall hx hne
    simp only [List.all_cons, Bool.and_eq_true] at hall
    obtain ⟨st1, hp1, hx1, hf1, hne1, ht1⟩ := processLine_wf st l hall.1 hx hne
    obtain ⟨st', hp2, hx2, hf2, hne2, ht2⟩ := ih st1 hall.2 hx1 hne1
    refine ⟨st', ?_, hx2, ?_, hne2, ht2.trans ht1⟩
    · rw [List.foldlM_cons, hp1]
      exact hp2
    · rw [hf2, hf1, lastFilePath_cons]
      cases lastFilePath rest <;> cases lineFile l <;> simp [Option.or]

/-! ## Claims -/

/-- C1 fails as stated: a `duration` line whose argument is not an
integer is not skipped — `int(line.split()[1])` raises `ValueError` and
the whole parse aborts instead of returning a `PlayerStatus`. -/
theorem claim_C1_counterexample :
    parse_status ("duration abc".data) = .error "ValueError" :=
  rfl

/-- C1 (amended): lines with an unrecognized prefix are skipped and the
parse still returns a `PlayerStatus` built from the remaining lines; but
skipping extends only to unrecognized prefixes — the parse raises when a
recognized-prefix line is malformed at the positions the loop body
indexes (a missing argument, a non-integer `duration`/`position`/volume
argument, or a tag name that is no `TrackInfo` field while a `file` path
is present).  On every status text whose recognized-prefix lines are
well-formed in that sense, parsing succeeds. -/
theorem claim_C1_amended_parse_leniency (output : Chars)
    (hsafe : (statusLines output).all lineSafe = true) :
    ∃ ps, parse_status output = .ok ps := by
  obtain ⟨st', hfold, hx⟩ :=
    foldl_processLine_safe (statusLines output)
      ⟨{ status := "stopped".data }, {}⟩ hsafe rfl
  obtain ⟨ps, hps⟩ := finishParse_isOk st' hx
  exact ⟨ps, (parse_status_eq output hfold).trans hps⟩

theorem claim_C1_amended_parse_leniency_witness :
    ∃ ps, parse_status
      ("status playing\nsome unknown protocol line\nduration 7".data)
        = .ok ps :=
  claim_C1_amended_parse_leniency
    ("status playing\nsome unknown protocol line\nduration 7".data)
    (by decide)

/-- C2 fails as stated: the input `tag file /x.mp3` contains no `file `
line, yet the parsed status carries a non-null track — the `tag` handler
stores the value under the lower-cased tag name, and the key `file` set
this way is indistinguishable from one seeded by a `file ` line. -/
theorem claim_C2_counterexample :
    ((parse_status ("tag file /x.mp3".data)).toOption.bind
        (fun ps => ps.track)).isSome = true
      ∧ (statusLines ("tag file /x.mp3".data)).any
          (fun l => isPre "file " l) = false :=
  ⟨rfl, rfl⟩

/-- C2 (amended): for well-formed status text (recognized lines carry
their arguments, `file ` lines a nonempty path, and tag names are the
tag-only `TrackInfo` fields — in particular no `tag file` line), the
parse succeeds, the track is non-null exactly when the text contains a
`file ` line, and the track's file equals the path of the last `file `
line. -/
theorem claim_C2_amended_track_iff_file_line (output : Chars)
    (hwf : (statusLines output).all wfLine = true) :
    ∃ ps, parse_status output = .ok ps
      ∧ ps.track.isSome
          = (statusLines output).any (fun l => isPre "file " l)
      ∧ (∀ t, ps.track = some t →
          some t.file = lastFilePath (statusLines output)) := by
  obtain ⟨st', hfold, hx, hf, hne, ht⟩ :=
    foldl_processLine_wf (statusLines output)
      ⟨{ status := "stopped".data }, {}⟩ hwf rfl (by intro x h; cases h)
  have hpe := parse_status_eq output hfold
  have hfile : st'.dict.file = lastFilePath (statusLines output) := by
    rw [hf]
    cases lastFilePath (statusLines output) <;> rfl
  cases hlast : lastFilePath (statusLines output) with
  | none =>
    have hany := (noFile_iff (statusLines output)).mp hlast
    have hfin := finishParse_nofile st' (by rw [hfile, hlast])
    refine ⟨st'.ps, hpe.trans hfin, ?_, ?_⟩
    · rw [ht, hany]
      rfl
    · intro t htr
      rw [ht] at htr
      cases htr
  | some f =>
    have hnef : f ≠ [] := hne f (by rw [hfile, hlast])
    have hany : (statusLines output).any (fun l => isPre "file " l) = true := by
      cases hb : (statusLines output).any (fun l => isPre "file " l)
      · rw [(noFile_iff (statusLines output)).mpr hb] at hlast
        cases hlast
      · rfl
    have hfin := finishParse_some st' f hx (by rw [hfile, hlast]) hnef
    refine ⟨_, hpe.trans hfin, ?_, ?_⟩
    · rw [hany]
      rfl
    · intro t htr
      simp only [Option.some.injEq] at htr
      rw [← htr]

theorem claim_C2_amended_track_iff_file_line_witness :
    ∃ ps, parse_status
      ("status playing\nfile /m/a.mp3\ntag artist X\nfile /m/b.mp3".data)
        = .ok ps
      ∧ ps.track.isSome
          = (statusLines
              ("status playing\nfile /m/a.mp3\ntag artist X\nfile /m/b.mp3".data)).any
              (fun l => isPre "file " l)
      ∧ (∀ t, ps.track = some t →
          some t.file = lastFilePath (statusLines
            ("status playing\nfile /m/a.mp3\ntag artist X\nfile /m/b.mp3".data))) :=
  claim_C2_amended_track_iff_file_line
    ("status playing\nfile /m/a.mp3\ntag artist X\nfile /m/b.mp3".data)
    (by decide)

/-- C3: the concrete status text of the specification's test scenario
parses to status `playing`, volume 75, shuffle on, repeat off, and a
track with file `/m/song.mp3`, artist `Beatles`, title `Come Together`,
duration 259 and position 30. -/
theorem claim_C3_concrete_scenario :
    parse_status ("status playing\nfile /m/song.mp3\ntag artist Beatles\ntag title Come Together\nduration 259\nposition 30\nset vol_left 75\nset shuffle true\n".data)
      = .ok
        { status := "playing".data
          track := some
            { file := "/m/song.mp3".data
              artist := some "Beatles".data
              album := Option.none
              title := some "Come Together".data
              duration := some (.i 259)
              position := some (.i 30)
              date := Option.none
              genre := Option.none }
          volume := 75
          «repeat» := false
          shuffle := true } :=
  rfl

/-- C4: `save` then `load` on the same path reproduces an equal durable
subset whenever the play history holds at most 1000 entries, and `load`
on a path naming no existing file leaves every field of the state at its
current value and raises no error. -/
theorem claim_C4_save_load_roundtrip (s s2 : AppState)
    (h : s.play_history.length ≤ 1000) :
    (AppState.load (some (AppState.save s)) s2).durable = s.durable
      ∧ AppState.load Option.none s2 = s2 := by
  refine ⟨?_, rfl⟩
  simp [AppState.load, AppState.save, AppState.durable,
        Nat.sub_eq_zero_of_le h]

theorem claim_C4_save_load_roundtrip_witness :
    (AppState.load (some (AppState.save { active_view := "library" })) {}).durable
        = AppState.durable { active_view := "library" }
      ∧ AppState.load Option.none ({} : AppState) = {} :=
  claim_C4_save_load_roundtrip { active_view := "library" } {} (by decide)

/-- C5: a subscriber that always raises does not prevent a second
subscriber on the same event type from being invoked: for every emitted
event of that type, the second subscriber's invocation appears in the
dispatch trace. -/
theorem claim_C5_handler_isolation (t : EventType) (f g : Handler)
    (events : List Event) (hfail : ∀ e, ∃ m, f.run e = .error m)
    (e : Event) (he : e ∈ events) (ht : e.type = t) :
    (⟨g.id, e, g.run e⟩ : Invocation)
      ∈ ((events.foldl EventBus.emit
            ((({} : EventBus).subscribe t f).subscribe t g)).process_events).1 := by
  clear hfail
  refine List.mem_flatMap.mpr ⟨e, ?_, ?_⟩
  · rw [foldl_emit_queue]
    simp [EventBus.subscribe]
    exact he
  · rw [foldl_emit_handlers]
    simp [EventBus.subscribe, putHandler, getHandlers, ht,
          dispatchEvent_eq_map]

theorem claim_C5_handler_isolation_witness :
    (⟨1, ⟨EventType.TRACK_CHANGED, [], 0, Option.none⟩, .ok ()⟩ : Invocation)
      ∈ (([⟨EventType.TRACK_CHANGED, [], 0, Option.none⟩].foldl EventBus.emit
            ((({} : EventBus).subscribe EventType.TRACK_CHANGED
                ⟨0, fun _ => .error "boom"⟩).subscribe EventType.TRACK_CHANGED
                ⟨1, fun _ => .ok ()⟩)).process_events).1 :=
  claim_C5_handler_isolation EventType.TRACK_CHANGED
    ⟨0, fun _ => .error "boom"⟩ ⟨1, fun _ => .ok ()⟩
    [⟨EventType.TRACK_CHANGED, [], 0, Option.none⟩]
    (fun _ => ⟨"boom", rfl⟩)
    ⟨EventType.TRACK_CHANGED, [], 0, Option.none⟩ (List.mem_singleton.mpr rfl) rfl

/-- C6: emitting events `A` then `B` of the same type with one
subscriber produces the invocations in order `A, B`: the queue is FIFO
in emission order and the single handler runs once per event. -/
theorem claim_C6_fifo_order (t : EventType) (A B : Event) (h : Handler)
    (hA : A.type = t) (hB : B.type = t) :
    (((({} : EventBus).subscribe t h).emit A).emit B).process_events.1
      = [⟨h.id, A, h.run A⟩, ⟨h.id, B, h.run B⟩] := by
  simp [EventBus.process_events, EventBus.emit, EventBus.subscribe,
        putHandler, getHandlers, hA, hB, dispatchEvent_eq_map]

theorem claim_C6_fifo_order_witness :
    (((({} : EventBus).subscribe EventType.VOLUME_CHANGED
          ⟨4, fun _ => .ok ()⟩).emit
        ⟨EventType.VOLUME_CHANGED, [], 0, Option.none⟩).emit
        ⟨EventType.VOLUME_CHANGED, [], 1, Option.none⟩).process_events.1
      = [⟨4, ⟨EventType.VOLUME_CHANGED, [], 0, Option.none⟩, .ok ()⟩,
         ⟨4, ⟨EventType.VOLUME_CHANGED, [], 1, Option.none⟩, .ok ()⟩] :=
  claim_C6_fifo_order EventType.VOLUME_CHANGED
    ⟨EventType.VOLUME_CHANGED, [], 0, Option.none⟩
    ⟨EventType.VOLUME_CHANGED, [], 1, Option.none⟩
    ⟨4, fun _ => .ok ()⟩ rfl rfl

/-- C7: with capacity 2, the sequence `set(a); set(b); get(a); set(c)`
at strictly increasing instants (the third within the TTL of the first)
refreshes `a`'s access time at the `get`, then evicts `b` — the entry
with the oldest last-access time — at the third `set`, retaining `a`
and `c`. -/
theorem claim_C7_lru_eviction {β : Type} (a b c : String)
    (va vb vc : Option β) (t1 t2 t3 t4 ttl : Nat)
    (hab : a ≠ b) (hac : a ≠ c) (hbc : b ≠ c)
    (h12 : t1 < t2) (h23 : t2 < t3) (h34 : t3 < t4) (httl : t3 - t1 < ttl) :
    (((({ max_size := 2, ttl := ttl } : Cache β).set a va t1).set b vb t2).get
        a t3).1 = va
      ∧ entGet (((({ max_size := 2, ttl := ttl } : Cache β).set a va t1).set
          b vb t2).get a t3).2.entries a = some (va, t3)
      ∧ entGet ((((({ max_size := 2, ttl := ttl } : Cache β).set a va t1).set
          b vb t2).get a t3).2.set c vc t4).entries b = Option.none
      ∧ entGet ((((({ max_size := 2, ttl := ttl } : Cache β).set a va t1).set
          b vb t2).get a t3).2.set c vc t4).entries a = some (va, t3)
      ∧ entGet ((((({ max_size := 2, ttl := ttl } : Cache β).set a va t1).set
          b vb t2).get a t3).2.set c vc t4).entries c = some (vc, t4) := by
  have hba : b ≠ a := hab.symm
  have hca : c ≠ a := hac.symm
  have hcb : c ≠ b := hbc.symm
  simp [Cache.set, Cache.get, entSet, entGet, entDel, oldestKey,
        hab, hac, hbc, hba, hca, hcb, httl, h23]

theorem claim_C7_lru_eviction_witness :
    (((({ max_size := 2, ttl := 100 } : Cache Nat).set "a" (some 1) 1).set
        "b" (some 2) 2).get "a" 3).1 = some 1
      ∧ entGet (((({ max_size := 2, ttl := 100 } : Cache Nat).set "a" (some 1)
          1).set "b" (some 2) 2).get "a" 3).2.entries "a" = some (some 1, 3)
      ∧ entGet ((((({ max_size := 2, ttl := 100 } : Cache Nat).set "a" (some 1)
          1).set "b" (some 2) 2).get "a" 3).2.set "c" (some 3) 4).entries "b"
          = Option.none
      ∧ entGet ((((({ max_size := 2, ttl := 100 } : Cache Nat).set "a" (some 1)
          1).set "b" (some 2) 2).get "a" 3).2.set "c" (some 3) 4).entries "a"
          = some (some 1, 3)
      ∧ entGet ((((({ max_size := 2, ttl := 100 } : Cache Nat).set "a" (some 1)
          1).set "b" (some 2) 2).get "a" 3).2.set "c" (some 3) 4).entries "c"
          = some (some 3, 4) :=
  claim_C7_lru_eviction "a" "b" "c" (some 1) (some 2) (some 3) 1 2 3 4 100
    (by decide) (by decide) (by decide) (by decide) (by decide) (by decide)
    (by decide)

/-- C8: for an entry last accessed at `T`, a `get` strictly after
`T + ttl` returns absent and removes the entry, while a `get` at an
instant at least `T` but before `T + ttl` returns the stored value. -/
theorem claim_C8_ttl_expiry {β : Type} (c : Cache β) (k : String)
    (v : Option β) (T now : Nat) (hk : entGet c.entries k = some (v, T)) :
    (T + c.ttl < now →
        (c.get k now).1 = Option.none
          ∧ entGet (c.get k now).2.entries k = Option.none)
      ∧ (T ≤ now → now < T + c.ttl → (c.get k now).1 = v) := by
  constructor
  · intro hlt
    have hexp : ¬ (now - T < c.ttl) := by omega
    simp [Cache.get, hk, hexp, entGet_entDel]
  · intro hle hfresh
    have hfr : now - T < c.ttl := by omega
    simp [Cache.get, hk, hfr]

theorem claim_C8_ttl_expiry_witness :
    ((⟨4, 10, [("k", some 5, 3)]⟩ : Cache Nat).get "k" 20).1 = Option.none
      ∧ ((⟨4, 10, [("k", some 5, 3)]⟩ : Cache Nat).get "k" 5).1 = some 5 :=
  ⟨((claim_C8_ttl_expiry ⟨4, 10, [("k", some 5, 3)]⟩ "k" (some 5) 3 20
      (by decide)).1 (by decide)).1,
   (claim_C8_ttl_expiry ⟨4, 10, [("k", some 5, 3)]⟩ "k" (some 5) 3 5
      (by decide)).2 (by decide) (by decide)⟩

/-- C9: `update` changes only the fields named by the keyword arguments;
every field not named keeps its value, a keyword naming no attribute is
silently skipped (the call stays total and the registry of observers is
untouched), and every registered observer is invoked with the supplied
key set. -/
theorem claim_C9_update_frame (s : AppState) (args : List UpdateArg) :
    (AppState.update s args).2
        = s._observers.map (fun o => (o, args.map UpdateArg.key))
      ∧ (∀ f : FieldKey, f.name ∉ args.map UpdateArg.key →
          (AppState.update s args).1.getField f = s.getField f)
      ∧ (AppState.update s args).1._observers = s._observers := by
  refine ⟨?_, ?_, ?_⟩
  · simp [AppState.update, foldl_applyArg_observers]
  · intro f hf
    simpa [AppState.update] using foldl_applyArg_getField args s f hf
  · simp [AppState.update, foldl_applyArg_observers]

theorem claim_C9_update_frame_witness :
    (AppState.update { _observers := [7] }
        [UpdateArg.active_view "library",
         UpdateArg.unknown "no_such_field" PyVal.none]).2
        = [(7, ["active_view", "no_such_field"])]
      ∧ (AppState.update { _observers := [7] }
          [UpdateArg.active_view "library",
           UpdateArg.unknown "no_such_field" PyVal.none]).1.getField
            FieldKey.search_query
        = AppState.getField { _observers := [7] } FieldKey.search_query := by
  have h := claim_C9_update_frame { _observers := [7] }
    [UpdateArg.active_view "library",
     UpdateArg.unknown "no_such_field" PyVal.none]
  exact ⟨h.1, h.2.1 FieldKey.search_query (by decide)⟩

/-- C10: when `get` yields `None` — the key is absent, expired, or its
stored value is itself `None` — `get_or_compute` invokes the compute
function, stores its result and returns it; in particular a stored
`None` is indistinguishable from a miss, so it is recomputed on every
call. -/
theorem claim_C10_stored_none_recomputes {β : Type} (c : Cache β)
    (k : String) (f : Unit → Option β) (now1 now2 : Nat) :
    ((c.get k now1).1 = Option.none →
        c.get_or_compute k f now1 now2
          = (f (), ((c.get k now1).2).set k (f ()) now2, true))
      ∧ (∀ T, entGet c.entries k = some (Option.none, T) →
          (c.get k now1).1 = Option.none) := by
  constructor
  · intro h
    simp [Cache.get_or_compute, h]
  · intro T hT
    by_cases hfr : now1 - T < c.ttl <;> simp [Cache.get, hT, hfr]

theorem claim_C10_stored_none_recomputes_witness :
    ((⟨4, 100, [("k", (Option.none : Option Nat), 0)]⟩ : Cache Nat).get_or_compute
        "k" (fun _ => some 7) 1 2).2.2 = true := by
  have h := claim_C10_stored_none_recomputes
    (⟨4, 100, [("k", (Option.none : Option Nat), 0)]⟩ : Cache Nat)
    "k" (fun _ => some 7) 1 2
  rw [h.1 (h.2 0 (by decide))]

end CmusRich
